import Mathlib

/-!
Verification of the Gordafarid encrypted relay against its specification.

The development shallowly embeds the relevant Go source:
byte streams become `List Nat` (each entry a byte value), the process-wide
nonce caches become explicit `Cache` values threaded through every call,
fallible operations return `Except`/`Option`, and a Go runtime panic is a
distinguished outcome.  The external AEAD primitives (`crypto/cipher.AEAD`,
AES-GCM from the Go standard library) are idealized as a perfectly
authenticating cipher with a 12-byte nonce and a 16-byte tag, matching the
interface contract the repository code relies on.
-/

/-- Byte sequences are lists of naturals (each entry is a byte value). -/
abbrev Bytes := List Nat

/-- The nonce caches hold the set of nonces already observed. -/
abbrev Cache := List Bytes

/-- Membership test of the nonce cache (`NonceCache.Exists` in the source). -/
def cacheHas : Cache → Bytes → Bool
  | [], _ => false
  | m :: rest, n => if m = n then true else cacheHas rest n

/-- Insertion into the nonce cache (`NonceCache.Store` in the source). -/
def cacheStore (c : Cache) (n : Bytes) : Cache := n :: c

theorem cacheHas_iff_mem (c : Cache) (n : Bytes) : cacheHas c n = true ↔ n ∈ c := by
  induction c with
  | nil => simp [cacheHas]
  | cons m rest ih =>
    by_cases h : m = n
    · simp [cacheHas, h]
    · simp [cacheHas, h, ih, (show ¬n = m from fun h' => h h'.symm)]

/-- Reading exactly `n` bytes from a stream: returns the bytes taken and the
remaining stream, or `none` when the stream is too short (an `io.ReadFull` /
exhausted-stream failure). -/
def takeExact : Nat → Bytes → Option (Bytes × Bytes)
  | 0, s => some ([], s)
  | _ + 1, [] => none
  | n + 1, b :: s =>
    match takeExact n s with
    | some (xs, rest) => some (b :: xs, rest)
    | none => none

theorem takeExact_eq_some {n : Nat} {s xs rest : Bytes}
    (h : takeExact n s = some (xs, rest)) : xs.length = n ∧ s = xs ++ rest := by
  induction n generalizing s xs rest with
  | zero =>
    simp [takeExact] at h
    simp [h.1, h.2]
  | succ n ih =>
    cases s with
    | nil => simp [takeExact] at h
    | cons b s' =>
      simp only [takeExact] at h
      cases hrec : takeExact n s' with
      | none => rw [hrec] at h; simp at h
      | some p =>
        obtain ⟨xs', rest'⟩ := p
        rw [hrec] at h
        simp at h
        obtain ⟨h1, h2⟩ := ih hrec
        cases h.1
        cases h.2
        constructor
        · simp [h1]
        · simp [h2]

theorem takeExact_append (xs rest : Bytes) :
    takeExact xs.length (xs ++ rest) = some (xs, rest) := by
  induction xs with
  | nil => simp [takeExact]
  | cons b xs ih => simp [takeExact, ih]

/-- Base-257 positional encoding of a byte list into a natural number.  The
empty list encodes to 1, so the encoding is injective on lists whose entries
are below 257. -/
def enc257 : Bytes → Nat
  | [] => 1
  | b :: rest => b + 257 * enc257 rest

theorem enc257_pos (l : Bytes) : 1 ≤ enc257 l := by
  cases l with
  | nil => simp [enc257]
  | cons b rest =>
    have := enc257_pos rest
    simp only [enc257]
    omega

theorem enc257_cons_ge (b : Nat) (rest : Bytes) : 257 ≤ enc257 (b :: rest) := by
  have := enc257_pos rest
  simp only [enc257]
  omega

theorem enc257_gt_of_mem {e : Nat} {l : Bytes} (h : e ∈ l) : e < enc257 l := by
  induction l with
  | nil => simp at h
  | cons b rest ih =>
    have hpos := enc257_pos rest
    rcases List.mem_cons.mp h with he | he
    · subst he
      simp only [enc257]
      omega
    · have := ih he
      simp only [enc257]
      omega

theorem enc257_inj {l₁ l₂ : Bytes} (h₁ : ∀ e ∈ l₁, e < 257) (h₂ : ∀ e ∈ l₂, e < 257)
    (h : enc257 l₁ = enc257 l₂) : l₁ = l₂ := by
  induction l₁ generalizing l₂ with
  | nil =>
    cases l₂ with
    | nil => rfl
    | cons b rest =>
      have hp := enc257_pos rest
      simp only [enc257] at h
      omega
  | cons b₁ rest₁ ih =>
    cases l₂ with
    | nil =>
      have hp := enc257_pos rest₁
      simp only [enc257] at h
      omega
    | cons b₂ rest₂ =>
      simp only [enc257] at h
      have hb₁ : b₁ < 257 := h₁ b₁ (by simp)
      have hb₂ : b₂ < 257 := h₂ b₂ (by simp)
      have hb : b₁ = b₂ ∧ enc257 rest₁ = enc257 rest₂ := by omega
      have htail := ih (fun e he => h₁ e (by simp [he])) (fun e he => h₂ e (by simp [he])) hb.2
      simp [hb.1, htail]

theorem enc257_append_cancel {ks l₁ l₂ : Bytes}
    (h : enc257 (ks ++ l₁) = enc257 (ks ++ l₂)) : enc257 l₁ = enc257 l₂ := by
  induction ks with
  | nil => simpa using h
  | cons k ks ih =>
    have h' : enc257 (k :: (ks ++ l₁)) = enc257 (k :: (ks ++ l₂)) := by simpa using h
    simp only [enc257] at h'
    exact ih (by omega)

/-! ## Idealized AEAD

The repository delegates encryption to Go's `crypto/cipher.AEAD` instances
(ChaCha20-Poly1305 and AES-GCM, all with a 12-byte nonce and 16-byte tag).
These are external standard-library primitives; the model below idealizes
them as a perfectly authenticating cipher: the ciphertext is the plaintext
followed by a 16-entry tag whose first entry encodes key, nonce and
plaintext injectively.  `aeadOpn` accepts a ciphertext exactly when it is
the sealing of its leading part under the same key and nonce. -/

/-- Authentication tag of the idealized AEAD: 16 entries, the first encoding
(key, nonce, plaintext) injectively. -/
def aeadTag (key nonce pt : Bytes) : Bytes :=
  enc257 (key ++ 256 :: nonce ++ 256 :: pt) :: List.replicate 15 0

/-- Sealing under the idealized AEAD (`aead.Seal(nil, nonce, b, nil)`). -/
def aeadSeal (key nonce pt : Bytes) : Bytes := pt ++ aeadTag key nonce pt

/-- Opening under the idealized AEAD (`aead.Open(nil, nonce, ct, nil)`);
`none` is an authentication failure. -/
def aeadOpn (key nonce ct : Bytes) : Option Bytes :=
  let pt := ct.take (ct.length - 16)
  if ct = aeadSeal key nonce pt then some pt else none

theorem aeadTag_length (key nonce pt : Bytes) : (aeadTag key nonce pt).length = 16 := by
  simp [aeadTag]

theorem aeadSeal_length (key nonce pt : Bytes) :
    (aeadSeal key nonce pt).length = pt.length + 16 := by
  simp [aeadSeal, aeadTag_length]

theorem aeadOpn_seal (key nonce pt : Bytes) :
    aeadOpn key nonce (aeadSeal key nonce pt) = some pt := by
  have htake : (aeadSeal key nonce pt).take ((aeadSeal key nonce pt).length - 16) = pt := by
    rw [aeadSeal_length]
    simp [aeadSeal, List.take_append_eq_append_take]
  simp [aeadOpn, htake]

theorem aeadOpn_eq_some {key nonce ct x : Bytes} :
    aeadOpn key nonce ct = some x ↔ ct = aeadSeal key nonce x := by
  constructor
  · intro h
    simp only [aeadOpn] at h
    by_cases hc : ct = aeadSeal key nonce (ct.take (ct.length - 16))
    · rw [if_pos hc] at h
      cases h
      exact hc
    · rw [if_neg hc] at h
      cases h
  · intro h
    subst h
    exact aeadOpn_seal key nonce x

/-! ## The aes_gcm package

`Encrypt_AES_GCM` and `Decrypt_AES_GCM` translate the functions of
`pkg/net/protocol/gordafarid/crypto/aes_gcm`.  The package-global nonce
cache appears as an explicit argument and result.  `Encrypt_AES_GCM` takes
the freshly drawn random nonce as a parameter (the source loops drawing
nonces until one is not in the cache). -/

def AES_GCM_NonceSize : Nat := 12

def AES_GCM_AuthTagSize : Nat := 16

/-- Error results of `Decrypt_AES_GCM`. -/
inductive GcmError where
  | tooShort
  | duplicatedNonce
  | authFailed
deriving DecidableEq, Repr

/-- Translation of `Decrypt_AES_GCM`: length check, nonce-cache replay check,
nonce insertion, then authenticated decryption. -/
def Decrypt_AES_GCM (ciphertext key : Bytes) (cache : Cache) :
    Except GcmError Bytes × Cache :=
  if ciphertext.length < AES_GCM_NonceSize then (.error .tooShort, cache)
  else
    let nonce := ciphertext.take AES_GCM_NonceSize
    let ct := ciphertext.drop AES_GCM_NonceSize
    if cacheHas cache nonce then (.error .duplicatedNonce, cache)
    else
      let cache' := cacheStore cache nonce
      match aeadOpn key nonce ct with
      | some pt => (.ok pt, cache')
      | none => (.error .authFailed, cache')

/-- Translation of `Encrypt_AES_GCM`: seal with the fresh nonce prepended
(`gcm.Seal(nonce, nonce, plaintext, nil)`), recording the nonce in the
cache. -/
def Encrypt_AES_GCM (plaintext key nonce : Bytes) (cache : Cache) : Bytes × Cache :=
  (nonce ++ aeadSeal key nonce plaintext, cacheStore cache nonce)

/-! ## The protocol package: address headers

Translation of `pkg/net/protocol/protocol.go` (`AddressHeader` and its
`Bytes`/`Size` methods) and of `pkg/net/utils` (`ReadAddress`, `ReadPort`).
Reads take the incoming stream and return the parsed value together with
the remaining stream. -/

def AtypIPv4 : Nat := 1

def AtypDomain : Nat := 3

def AtypIPv6 : Nat := 4

def IPv4len : Nat := 4

def IPv6len : Nat := 16

def DstPortSize : Nat := 2

/-- Errors of the address read path in `pkg/net/utils`. -/
inductive AddrError where
  | readFailed
  | unsupportedAddressType
deriving DecidableEq, Repr

/-- Translation of `utils.ReadAddress`: switch on the address type already
consumed by the caller; for a domain, read a one-byte length then that many
bytes.  The source performs no check on the domain length. -/
def ReadAddress (atyp : Nat) (s : Bytes) : Except AddrError (Bytes × Bytes) :=
  if atyp = AtypIPv4 then
    match takeExact IPv4len s with
    | some (buf, rest) => .ok (buf, rest)
    | none => .error .readFailed
  else if atyp = AtypIPv6 then
    match takeExact IPv6len s with
    | some (buf, rest) => .ok (buf, rest)
    | none => .error .readFailed
  else if atyp = AtypDomain then
    match takeExact 1 s with
    | some (lenBuf, rest) =>
      match takeExact lenBuf.headI rest with
      | some (buf, rest') => .ok (buf, rest')
      | none => .error .readFailed
    | none => .error .readFailed
  else .error .unsupportedAddressType

/-- Translation of `utils.ReadPort`: read the 2-byte port. -/
def ReadPort (s : Bytes) : Except AddrError (Bytes × Bytes) :=
  match takeExact DstPortSize s with
  | some (port, rest) => .ok (port, rest)
  | none => .error .readFailed

/-- Translation of `protocol.AddressHeader`: address type, destination
address bytes, and the 2-byte destination port. -/
structure AddressHeader where
  Atyp : Nat
  DstAddr : List Nat
  DstPort : List Nat
deriving DecidableEq, Repr

/-- Translation of `AddressHeader.Bytes`: the atyp, a one-byte domain length
for domains (`byte(len(ah.DstAddr))`, hence the mod 256), the address bytes
and the port bytes. -/
def AddressHeader.Bytes (ah : AddressHeader) : List Nat :=
  [ah.Atyp] ++ (if ah.Atyp = AtypDomain then [ah.DstAddr.length % 256] else [])
    ++ ah.DstAddr ++ ah.DstPort

/-! ## Claims about the address codec (C8, C9) -/

/-- C8 (as stated, refuted): the claim says a one-byte domain length of 0 is
rejected with an error.  On the concrete input stream `[0, 0, 80]` (domain
length 0 followed by a port), `ReadAddress` succeeds and yields the empty
domain name, so the claim is false. -/
theorem readAddress_domainLengthZero_accepted :
    ReadAddress AtypDomain [0, 0, 80] = .ok ([], [0, 80]) := by rfl

/-- C8 (amended): a one-byte domain length of 0 is not rejected; the codec
reads zero domain bytes and returns an empty domain name with no error. -/
theorem readAddress_domainLengthZero (s : Bytes) :
    ReadAddress AtypDomain (0 :: s) = .ok ([], s) := by rfl

/-- C9: decoding a well-formed serialized address (the read path consuming
the whole input) and re-encoding with `AddressHeader.Bytes` reproduces the
original byte sequence. -/
theorem addressHeader_roundtrip (atyp : Nat) (rest addr rest₂ port : Bytes)
    (hb : ∀ b ∈ rest, b < 256)
    (haddr : ReadAddress atyp rest = .ok (addr, rest₂))
    (hport : ReadPort rest₂ = .ok (port, [])) :
    (AddressHeader.mk atyp addr port).Bytes = atyp :: rest := by
  have hrest₂ : rest₂ = port := by
    simp only [ReadPort, DstPortSize] at hport
    cases htp : takeExact 2 rest₂ with
    | none => rw [htp] at hport; cases hport
    | some p =>
      obtain ⟨prt, r⟩ := p
      rw [htp] at hport
      cases hport
      obtain ⟨-, h2⟩ := takeExact_eq_some htp
      simpa using h2
  subst hrest₂
  by_cases h1 : atyp = AtypIPv4
  · subst h1
    simp only [ReadAddress, if_pos rfl] at haddr
    cases hta : takeExact IPv4len rest with
    | none => rw [hta] at haddr; cases haddr
    | some p =>
      obtain ⟨buf, r⟩ := p
      rw [hta] at haddr
      cases haddr
      obtain ⟨-, h2⟩ := takeExact_eq_some hta
      simp [AddressHeader.Bytes, AtypIPv4, AtypDomain, h2]
  · by_cases h2 : atyp = AtypIPv6
    · subst h2
      simp only [ReadAddress, AtypIPv6, AtypIPv4, reduceIte] at haddr
      cases hta : takeExact IPv6len rest with
      | none => rw [hta] at haddr; cases haddr
      | some p =>
        obtain ⟨buf, r⟩ := p
        rw [hta] at haddr
        cases haddr
        obtain ⟨-, hr⟩ := takeExact_eq_some hta
        simp [AddressHeader.Bytes, AtypIPv6, AtypDomain, hr]
    · by_cases h3 : atyp = AtypDomain
      · subst h3
        cases hta : takeExact 1 rest with
        | none => simp [ReadAddress, AtypDomain, AtypIPv4, AtypIPv6, hta] at haddr
        | some p =>
          obtain ⟨lenBuf, r1⟩ := p
          obtain ⟨hl1, hr1⟩ := takeExact_eq_some hta
          cases htb : takeExact lenBuf.headI r1 with
          | none => simp [ReadAddress, AtypDomain, AtypIPv4, AtypIPv6, hta, htb] at haddr
          | some q =>
            obtain ⟨buf, r2⟩ := q
            simp only [ReadAddress, AtypDomain, AtypIPv4, AtypIPv6, hta, htb] at haddr
            simp only [if_true] at haddr
            cases haddr
            obtain ⟨hl2, hr2⟩ := takeExact_eq_some htb
            obtain ⟨L, hL⟩ : ∃ L, lenBuf = [L] := by
              cases lenBuf with
              | nil => simp at hl1
              | cons a t => cases t with
                | nil => exact ⟨a, rfl⟩
                | cons b t' => simp at hl1
            subst hL
            have hLlt : L < 256 := by
              apply hb
              rw [hr1]
              simp
            have hlen : addr.length = L := by simpa using hl2
            simp only [AddressHeader.Bytes, AtypDomain, reduceIte, hlen,
              Nat.mod_eq_of_lt hLlt]
            simp [hr1, hr2]
      · simp [ReadAddress, h1, h2, h3] at haddr

/-- Witness for C9 at a concrete domain address: atyp 3, domain "abc",
port 80. -/
theorem addressHeader_roundtrip_witness :
    (AddressHeader.mk 3 [97, 98, 99] [0, 80]).Bytes = 3 :: [3, 97, 98, 99, 0, 80] :=
  addressHeader_roundtrip 3 [3, 97, 98, 99, 0, 80] [97, 98, 99] [0, 80] [0, 80]
    (by decide) (by rfl) (by rfl)


/-! ## Claims about the sealed-greeting codec (C6, C4) -/

/-- Entries of the tag-input list are all below 257 when key, nonce and
plaintext are byte lists. -/
theorem tagInput_bound {key nonce pt : Bytes} (hbk : ∀ b ∈ key, b < 256)
    (hbn : ∀ b ∈ nonce, b < 256) (hbp : ∀ b ∈ pt, b < 256) :
    ∀ e ∈ key ++ 256 :: nonce ++ 256 :: pt, e < 257 := by
  intro e he
  simp only [List.mem_append, List.mem_cons] at he
  have h4 : e ∈ key ∨ e = 256 ∨ e ∈ nonce ∨ e ∈ pt := by tauto
  rcases h4 with h | h | h | h
  · exact Nat.lt_trans (hbk e h) (by omega)
  · omega
  · exact Nat.lt_trans (hbn e h) (by omega)
  · exact Nat.lt_trans (hbp e h) (by omega)

/-- Two equal tag-input lists with equally long keys have equal keys. -/
theorem tagInput_key_eq {key key' nonce pt : Bytes}
    (hlen : key.length = key'.length)
    (h : (key ++ 256 :: nonce ++ 256 :: pt : Bytes) = key' ++ 256 :: nonce ++ 256 :: pt) :
    key = key' := by
  have h1 := (List.append_inj h (by simp [hlen])).1
  exact (List.append_inj h1 (by simp [hlen])).1

set_option maxRecDepth 8000 in
/-- C6 (as stated, refuted): the claim says every blob of length at most 12
is rejected with the "ciphertext too short" error, and that a 61-byte blob
is too.  The source only raises that error when the blob is strictly
shorter than the 12-byte nonce: at the boundary length 12 and at length 61
decryption instead fails with an authentication error. -/
theorem decrypt_len12_len61_not_tooShort :
    (Decrypt_AES_GCM (List.replicate 12 0) (List.replicate 32 0) []).1
        = .error .authFailed
      ∧ (Decrypt_AES_GCM (List.replicate 61 0) (List.replicate 32 0) []).1
        = .error .authFailed
      ∧ GcmError.authFailed ≠ GcmError.tooShort := by
  refine ⟨rfl, rfl, ?_⟩
  intro h
  cases h

/-- C6 (amended): the open operation fails with the "too short" error
exactly on blobs of fewer than 12 bytes (the nonce size); no blob of
length 12 or more ever yields that error. -/
theorem decrypt_tooShort_iff (ciphertext key : Bytes) (cache : Cache) :
    (Decrypt_AES_GCM ciphertext key cache).1 = .error .tooShort
      ↔ ciphertext.length < 12 := by
  constructor
  · intro h
    by_contra hge
    simp only [Decrypt_AES_GCM, AES_GCM_NonceSize] at h
    rw [if_neg hge] at h
    by_cases hch : cacheHas cache (ciphertext.take 12) = true
    · rw [if_pos hch] at h
      simp at h
    · rw [if_neg hch] at h
      cases hop : aeadOpn key (ciphertext.take 12) (ciphertext.drop 12) with
      | none => rw [hop] at h; simp at h
      | some pt => rw [hop] at h; simp at h
  · intro h
    simp [Decrypt_AES_GCM, AES_GCM_NonceSize, h]

/-- C4: a sealed greeting opens under a candidate key exactly when that key
is the init-password it was sealed with; the receiver's nonce cache must not
already contain the (randomly drawn) nonce. -/
theorem sealedGreeting_opens_iff_key (pt key key' nonce : Bytes) (sc rc : Cache)
    (hpt : pt.length = 34) (hk : key.length = 32) (hk' : key'.length = 32)
    (hn : nonce.length = 12)
    (hbk : ∀ b ∈ key, b < 256) (hbk' : ∀ b ∈ key', b < 256)
    (hbn : ∀ b ∈ nonce, b < 256) (hbp : ∀ b ∈ pt, b < 256)
    (hfresh : nonce ∉ rc) :
    (∃ x, (Decrypt_AES_GCM (Encrypt_AES_GCM pt key nonce sc).1 key' rc).1 = .ok x)
      ↔ key' = key := by
  have hblob : (Encrypt_AES_GCM pt key nonce sc).1 = nonce ++ aeadSeal key nonce pt := rfl
  have hlen : (nonce ++ aeadSeal key nonce pt).length = 62 := by
    simp [aeadSeal_length, hn, hpt]
  have htk : (nonce ++ aeadSeal key nonce pt).take AES_GCM_NonceSize = nonce := by
    rw [AES_GCM_NonceSize, ← hn, List.take_left]
  have hdr : (nonce ++ aeadSeal key nonce pt).drop AES_GCM_NonceSize
      = aeadSeal key nonce pt := by
    rw [AES_GCM_NonceSize, ← hn, List.drop_left]
  have hch : cacheHas rc nonce = false := by
    cases h : cacheHas rc nonce
    · rfl
    · exact absurd ((cacheHas_iff_mem rc nonce).mp h) hfresh
  rw [hblob]
  simp only [Decrypt_AES_GCM, hlen, AES_GCM_NonceSize] at *
  rw [if_neg (by omega), htk, hdr, hch]
  simp only [Bool.false_eq_true, if_false]
  constructor
  · intro hx
    obtain ⟨x, hx⟩ := hx
    cases hop : aeadOpn key' nonce (aeadSeal key nonce pt) with
    | none => rw [hop] at hx; cases hx
    | some y =>
      have hy : aeadSeal key nonce pt = aeadSeal key' nonce y := aeadOpn_eq_some.mp hop
      have hylen : y.length = pt.length := by
        have hc := congrArg List.length hy
        simp only [aeadSeal_length] at hc
        omega
      simp only [aeadSeal] at hy
      obtain ⟨hpteq, htageq⟩ := List.append_inj hy (by omega)
      subst hpteq
      simp only [aeadTag, List.cons.injEq] at htageq
      have hlistEq := enc257_inj (tagInput_bound hbk hbn hbp)
        (tagInput_bound hbk' hbn hbp) htageq.1
      exact (tagInput_key_eq (hk.trans hk'.symm) hlistEq).symm
  · intro hkey
    subst hkey
    rw [aeadOpn_seal]
    exact ⟨pt, rfl⟩

/-- Witness for C4: a concrete all-zero greeting, all-zero init-password,
and the same password on the receiving side. -/
theorem sealedGreeting_opens_iff_key_witness :
    (∃ x, (Decrypt_AES_GCM
        (Encrypt_AES_GCM (List.replicate 34 0) (List.replicate 32 0)
          (List.replicate 12 0) []).1
        (List.replicate 32 0) []).1 = .ok x)
      ↔ List.replicate 32 0 = (List.replicate 32 0 : Bytes) :=
  sealedGreeting_opens_iff_key (List.replicate 34 0) (List.replicate 32 0)
    (List.replicate 32 0) (List.replicate 12 0) [] []
    (by decide) (by decide) (by decide) (by decide)
    (by intro b hb; simp at hb; omega)
    (by intro b hb; simp at hb; omega)
    (by intro b hb; simp at hb; omega)
    (by intro b hb; simp at hb; omega)
    (by decide)

/-! ## The Gordafarid server greeting (C2)

Translation of `Conn.serverHandleGreeting` and `Conn.handleAuthentication`
from the gordafarid package: read the 62-byte sealed greeting, open it with
the init-password, check version and command, read the 32-byte account
hash, and look it up in the server credentials. -/

def gordafaridVersion : Nat := 1

def CmdConnect : Nat := 1

def HashSize : Nat := 32

/-- Credential lookup in the server credentials map
(`c.config.serverCredentials[greetingHash]`), modelled as an association
list from account hash to password. -/
def credLookup : List (Bytes × Bytes) → Bytes → Option Bytes
  | [], _ => none
  | (h, p) :: rest, k => if h = k then some p else credLookup rest k

/-- Error results of `serverHandleGreeting`. -/
inductive GreetingError where
  | readFailed
  | dupNonce
  | decryptFailed
  | badVersion
  | badCmd
  | hashReadFailed
  | invalidHash
  | authFailed
deriving DecidableEq, Repr

/-- Successful greeting result: the parsed header fields and the
authenticated account's password. -/
structure GreetingOk where
  version : Nat
  cmd : Nat
  hash : Bytes
  password : Bytes
deriving DecidableEq, Repr

/-- Translation of `Conn.serverHandleGreeting` followed by
`Conn.handleAuthentication`: the 62-byte blob (12-byte nonce, 34-byte
greeting, 16-byte tag) is read from the stream and opened with the
init-password; the plaintext is parsed as version, command and 32-byte
hash; the hash is looked up in the credentials. -/
def serverHandleGreeting (creds : List (Bytes × Bytes)) (initPassword : Bytes)
    (stream : Bytes) (cache : Cache) : Except GreetingError GreetingOk × Cache :=
  match takeExact 62 stream with
  | none => (.error .readFailed, cache)
  | some (greetingCipher, _) =>
    match Decrypt_AES_GCM greetingCipher initPassword cache with
    | (.error .duplicatedNonce, cache') => (.error .dupNonce, cache')
    | (.error _, cache') => (.error .decryptFailed, cache')
    | (.ok pt, cache') =>
      match pt with
      | [] => (.error .readFailed, cache')
      | v :: rest =>
        if v ≠ gordafaridVersion then (.error .badVersion, cache')
        else
          match rest with
          | [] => (.error .readFailed, cache')
          | c :: rest' =>
            if c ≠ CmdConnect then (.error .badCmd, cache')
            else if rest' = [] then (.error .hashReadFailed, cache')
            else if rest'.length < HashSize then (.error .invalidHash, cache')
            else
              match credLookup creds (rest'.take HashSize) with
              | none => (.error .authFailed, cache')
              | some pw => (.ok ⟨v, c, rest'.take HashSize, pw⟩, cache')

theorem aeadOpn_length {key nonce ct x : Bytes} (h : aeadOpn key nonce ct = some x) :
    x.length + 16 = ct.length := by
  have hc := aeadOpn_eq_some.mp h
  have := congrArg List.length hc
  rw [aeadSeal_length] at this
  omega

theorem takeExact_of_le {n : Nat} {s : Bytes} (h : n ≤ s.length) :
    takeExact n s = some (s.take n, s.drop n) := by
  have hlen : (s.take n).length = n := by simp [h]
  have := takeExact_append (s.take n) (s.drop n)
  rw [hlen, List.take_append_drop] at this
  exact this

theorem decrypt_ok_length {blob key pt : Bytes} {cache cache' : Cache}
    (h : Decrypt_AES_GCM blob key cache = (.ok pt, cache')) :
    pt.length + 28 = blob.length := by
  simp only [Decrypt_AES_GCM, AES_GCM_NonceSize] at h
  by_cases hlt : blob.length < 12
  · rw [if_pos hlt] at h; simp at h
  · rw [if_neg hlt] at h
    by_cases hc : cacheHas cache (blob.take 12) = true
    · rw [if_pos hc] at h; simp at h
    · rw [if_neg hc] at h
      cases hop : aeadOpn key (blob.take 12) (blob.drop 12) with
      | none => rw [hop] at h; simp at h
      | some y =>
        rw [hop] at h
        have hy : y = pt := by
          have hinj : (Except.ok y : Except GcmError Bytes) = Except.ok pt := congrArg Prod.fst h
          injection hinj
        subst hy
        have := aeadOpn_length hop
        simp only [List.length_drop] at this
        omega

/-- C2: the server accepts the greeting exactly when the 62-byte blob
decrypts under the init-password, the decrypted version and command bytes
are both 1, and the 32-byte identifier is present in the credentials map. -/
theorem serverHandleGreeting_ok_iff (creds : List (Bytes × Bytes))
    (initPw stream : Bytes) (cache : Cache) (h62 : 62 ≤ stream.length) :
    (∃ r c', serverHandleGreeting creds initPw stream cache = (.ok r, c'))
      ↔ ∃ pt, (Decrypt_AES_GCM (stream.take 62) initPw cache).1 = .ok pt
          ∧ pt.take 2 = [gordafaridVersion, CmdConnect]
          ∧ (credLookup creds (pt.drop 2)).isSome = true := by
  have hte : takeExact 62 stream = some (stream.take 62, stream.drop 62) :=
    takeExact_of_le h62
  rcases hd : Decrypt_AES_GCM (stream.take 62) initPw cache with ⟨res, cache'⟩
  cases res with
  | error e =>
    constructor
    · rintro ⟨r, c', hr⟩
      simp only [serverHandleGreeting, hte, hd] at hr
      cases e <;> simp at hr
    · rintro ⟨pt, hpt, -, -⟩
      simp at hpt
  | ok pt =>
    have hptlen : pt.length = 34 := by
      have hdl := decrypt_ok_length hd
      have hbl : (stream.take 62).length = 62 := by
        simp [List.length_take]
        omega
      omega
    cases pt with
    | nil => simp at hptlen
    | cons v rest =>
      cases rest with
      | nil => simp at hptlen
      | cons c rest' =>
        have hr32 : rest'.length = 32 := by
          simp only [List.length_cons] at hptlen
          omega
        have hrt : rest'.take HashSize = rest' := by
          rw [HashSize]
          exact List.take_of_length_le (by omega)
        have hrne : ¬rest' = [] := by
          intro h
          rw [h] at hr32
          simp at hr32
        have hrnl : ¬rest'.length < HashSize := by
          rw [HashSize]
          omega
        simp only [serverHandleGreeting, hte, hd, hrt]
        by_cases hv : v = gordafaridVersion
        · subst hv
          by_cases hc : c = CmdConnect
          · subst hc
            simp only [ne_eq, not_true_eq_false, if_false, if_neg hrne, if_neg hrnl]
            cases hcl : credLookup creds rest' with
            | none =>
              simp only [hcl]
              constructor
              · rintro ⟨r, c', hr⟩
                cases hr
              · rintro ⟨pt', hpt', -, hsome⟩
                have hpe : pt' = gordafaridVersion :: CmdConnect :: rest' := by
                  injection hpt' with h'
                  exact h'.symm
                subst hpe
                simp only [List.drop_succ_cons, List.drop_zero, hcl] at hsome
                cases hsome
            | some pw =>
              simp only [hcl]
              constructor
              · rintro -
                refine ⟨gordafaridVersion :: CmdConnect :: rest', ?_, ?_, ?_⟩
                · rfl
                · simp
                · simp [hcl]
              · rintro -
                exact ⟨⟨gordafaridVersion, CmdConnect, rest', pw⟩, cache', rfl⟩
          · have hcif : (c ≠ CmdConnect) = True := by simp [hc]
            simp only [ne_eq, not_true_eq_false, if_false, hcif, if_true]
            constructor
            · rintro ⟨r, c', hr⟩
              cases hr
            · rintro ⟨pt', hpt', htk, -⟩
              have hpe : pt' = gordafaridVersion :: c :: rest' := by
                injection hpt' with h'
                exact h'.symm
              subst hpe
              simp only [List.take_succ_cons, List.take_zero] at htk
              have hceq : c = CmdConnect := by
                have h2 := List.cons.inj htk
                exact (List.cons.inj h2.2).1
              exact absurd hceq hc
        · have hvif : (v ≠ gordafaridVersion) = True := by simp [hv]
          simp only [hvif, if_true]
          constructor
          · rintro ⟨r, c', hr⟩
            cases hr
          · rintro ⟨pt', hpt', htk, -⟩
            have hpe : pt' = v :: c :: rest' := by
              injection hpt' with h'
              exact h'.symm
            subst hpe
            simp only [List.take_succ_cons, List.take_zero] at htk
            exact absurd (List.cons.inj htk).1 hv

/-- Witness for C2: a concrete greeting sealed under the server's
init-password, whose identifier is registered in the credentials map. -/
theorem serverHandleGreeting_ok_iff_witness :
    (∃ r c', serverHandleGreeting [(List.replicate 32 7, List.replicate 32 1)]
        (List.replicate 32 0)
        (Encrypt_AES_GCM (1 :: 1 :: List.replicate 32 7) (List.replicate 32 0)
          (List.replicate 12 3) []).1 []
        = (.ok r, c'))
      ↔ ∃ pt, (Decrypt_AES_GCM
            ((Encrypt_AES_GCM (1 :: 1 :: List.replicate 32 7) (List.replicate 32 0)
              (List.replicate 12 3) []).1.take 62)
            (List.replicate 32 0) []).1 = .ok pt
          ∧ pt.take 2 = [gordafaridVersion, CmdConnect]
          ∧ (credLookup [(List.replicate 32 7, List.replicate 32 1)]
              (pt.drop 2)).isSome = true :=
  serverHandleGreeting_ok_iff [(List.replicate 32 7, List.replicate 32 1)]
    (List.replicate 32 0)
    (Encrypt_AES_GCM (1 :: 1 :: List.replicate 32 7) (List.replicate 32 0)
      (List.replicate 12 3) []).1 []
    (by
      rw [show (Encrypt_AES_GCM (1 :: 1 :: List.replicate 32 7) (List.replicate 32 0)
        (List.replicate 12 3) []).1
        = List.replicate 12 3
          ++ aeadSeal (List.replicate 32 0) (List.replicate 12 3)
              (1 :: 1 :: List.replicate 32 7) from rfl]
      simp [aeadSeal_length])

/-! ## The SOCKS5 acceptor (C7)

Translation of `selectPreferredSocks5AuthMethod`, `verifyMethods`,
`serverParseInitialGreetingHeaders`, `serverHandleInitialGreeting` and the
user/password sub-negotiation from `pkg/net/protocol/socks`.  The
credentials map is `none` when the server is configured without
credentials (a nil Go map) and `some m` otherwise.  Each function returns
its result together with the list of responses written to the client. -/

def socks5Version : Nat := 5

def noAuthMethod : Nat := 0

def userPassAuthMethod : Nat := 2

def noAcceptableMethod : Nat := 255

def userPassAuthVersion : Nat := 1

def userPassAuthSuccess : Nat := 0

def userPassAuthFailed : Nat := 1

/-- Error results of the SOCKS5 greeting path. -/
inductive SocksError where
  | readFailed
  | unsupportedVersion
  | invalidNMethods
  | invalidMethod
  | noAcceptable
  | badAuthVersion
  | authFailed
deriving DecidableEq, Repr

/-- Translation of the method-scanning loop of
`selectPreferredSocks5AuthMethod` (with its early break once both flags are
set). -/
def scanMethods : List Nat → Bool → Bool → Bool × Bool
  | [], noAuth, userPass => (noAuth, userPass)
  | m :: rest, noAuth, userPass =>
    let noAuth' := if m = noAuthMethod then true else noAuth
    let userPass' := if m = userPassAuthMethod then true else userPass
    if noAuth' && userPass' then (noAuth', userPass')
    else scanMethods rest noAuth' userPass'

/-- Translation of `selectPreferredSocks5AuthMethod`: prefer user/password
when credentials are configured and the client offers it; fall back to
no-auth when no credentials are configured and the client offers it;
otherwise fail with `noAcceptableMethod`. -/
def selectPreferredSocks5AuthMethod (credentials : Option (List (Bytes × Bytes)))
    (methods : List Nat) : Nat × Bool :=
  let flags := scanMethods methods false false
  if credentials.isSome && flags.2 then (userPassAuthMethod, true)
  else if credentials.isNone && flags.1 then (noAuthMethod, true)
  else (noAcceptableMethod, false)

/-- Translation of `verifyMethods`: fails when credentials are configured
but the selected method is not user/password. -/
def verifyMethods (credentials : Option (List (Bytes × Bytes))) (bestMethod : Nat) : Bool :=
  !(credentials.isSome && bestMethod != userPassAuthMethod)

/-- Translation of `authenticate`: with no credential map, authentication
succeeds; otherwise look up the username and compare the password. -/
def socksAuthenticate (credentials : Option (List (Bytes × Bytes)))
    (username password : Bytes) : Bool :=
  match credentials with
  | none => true
  | some m =>
    match credLookup m username with
    | none => false
    | some pw => password = pw

/-- Translation of `serverParseInitialGreetingHeaders`: read version and
nmethods, check the version is 5 and nmethods nonzero, then read the
method bytes. -/
def serverParseInitialGreetingHeaders (stream : Bytes) :
    Except SocksError (List Nat × Bytes) :=
  match takeExact 2 stream with
  | none => .error .readFailed
  | some (hdr, rest) =>
    if hdr.headI ≠ socks5Version then .error .unsupportedVersion
    else if hdr.getD 1 0 = 0 then .error .invalidNMethods
    else
      match takeExact (hdr.getD 1 0) rest with
      | none => .error .invalidNMethods
      | some (methods, rest') => .ok (methods, rest')

/-- Translation of `serverParseUserPassAuthMethodHeaders`: read the
sub-negotiation version (must be 1), then the length-prefixed username and
password. -/
def serverParseUserPassAuthMethodHeaders (stream : Bytes) :
    Except SocksError (Bytes × Bytes × Bytes) :=
  match takeExact 1 stream with
  | none => .error .readFailed
  | some (verBuf, r1) =>
    if verBuf.headI ≠ userPassAuthVersion then .error .badAuthVersion
    else
      match takeExact 1 r1 with
      | none => .error .readFailed
      | some (ulenBuf, r2) =>
        match takeExact ulenBuf.headI r2 with
        | none => .error .readFailed
        | some (username, r3) =>
          match takeExact 1 r3 with
          | none => .error .readFailed
          | some (plenBuf, r4) =>
            match takeExact plenBuf.headI r4 with
            | none => .error .readFailed
            | some (password, r5) => .ok (username, password, r5)

/-- Translation of `serverHandleUserPassAuthMethodNegotiation`: parse the
headers, authenticate, and send `{1, 0}` on success or `{1, 1}` on
failure. -/
def serverHandleUserPassAuthMethodNegotiation
    (credentials : Option (List (Bytes × Bytes))) (stream : Bytes) :
    Except SocksError Unit × List Bytes :=
  match serverParseUserPassAuthMethodHeaders stream with
  | .error e => (.error e, [])
  | .ok (username, password, _) =>
    if socksAuthenticate credentials username password then
      (.ok (), [[userPassAuthVersion, userPassAuthSuccess]])
    else
      (.error .authFailed, [[userPassAuthVersion, userPassAuthFailed]])

/-- Translation of `serverHandleInitialGreeting`: parse the greeting,
select the method, verify it, send the method-selection response, and run
the user/password sub-negotiation when selected.  The second component
collects every response written to the client, in order. -/
def serverHandleInitialGreeting (credentials : Option (List (Bytes × Bytes)))
    (stream : Bytes) : Except SocksError Nat × List Bytes :=
  match serverParseInitialGreetingHeaders stream with
  | .error e => (.error e, [])
  | .ok (methods, rest) =>
    let sel := selectPreferredSocks5AuthMethod credentials methods
    if sel.2 then
      if verifyMethods credentials sel.1 then
        if sel.1 = userPassAuthMethod then
          match serverHandleUserPassAuthMethodNegotiation credentials rest with
          | (.ok _, ws) => (.ok sel.1, [socks5Version, sel.1] :: ws)
          | (.error e, ws) => (.error e, [socks5Version, sel.1] :: ws)
        else (.ok sel.1, [[socks5Version, sel.1]])
      else (.error .noAcceptable, [[socks5Version, noAcceptableMethod]])
    else (.error .invalidMethod, [])

/-- C7 (as stated, refuted): with configured credentials and a greeting
advertising only the no-auth method, the claim says the acceptor sends
`{5, 0xFF}` before failing.  In the source, `serverHandleInitialGreeting`
returns the selection error before any response is written: nothing is
sent. -/
theorem socks_noAuthOnly_withCreds_sendsNothing :
    serverHandleInitialGreeting (some [([117], [112])]) [5, 1, 0]
        = (.error .invalidMethod, [])
      ∧ ([] : List Bytes) ≠ [[socks5Version, noAcceptableMethod]] := by
  constructor
  · rfl
  · simp

/-- C7 (amended): a greeting advertising only no-auth fails with no
response written when credentials are configured, and succeeds with the
single response `{5, 0}` when no credentials are configured. -/
theorem socks_noAuthOnly (creds : List (Bytes × Bytes)) (rest : Bytes) :
    serverHandleInitialGreeting (some creds) ([5, 1, 0] ++ rest)
        = (.error .invalidMethod, [])
      ∧ serverHandleInitialGreeting none ([5, 1, 0] ++ rest)
        = (.ok noAuthMethod, [[socks5Version, noAuthMethod]]) := by
  constructor
  · rfl
  · rfl

/-! ## The cipher_conn package (C1, C3, C5, C10)

Translation of `CipherConn.Read` and `CipherConn.Write` from
`pkg/net/protocol/gordafarid/cipher_conn`.  A `CipherConn` value holds the
remaining incoming byte stream and the internal plaintext buffer; the
package-global nonce cache is threaded explicitly.  `Write` returns the
list of write calls issued on the underlying connection (the source issues
exactly one), the returned byte count, and the updated cache.  A Go
runtime panic (out-of-range slice) is reported through the `crashed`
flag. -/

def packetMessageLengthSize : Nat := 2

/-- Translation of `binary.BigEndian.PutUint16` (the argument is first
truncated to `uint16` by the Go cast). -/
def putUint16BE (v : Nat) : Bytes := [v % 65536 / 256, v % 256]

/-- Translation of `binary.BigEndian.Uint16` on two bytes. -/
def uint16BE (b0 b1 : Nat) : Nat := b0 % 256 * 256 + b1 % 256

/-- Read-side state of a `CipherConn`: the remaining incoming stream and
the internal plaintext buffer. -/
structure CipherConn where
  stream : Bytes
  buffer : Bytes
deriving DecidableEq, Repr

/-- Error results of `CipherConn.Read`. -/
inductive CipherReadError where
  | ioFailed
  | replayAttack
  | decryptFailed
deriving DecidableEq, Repr

/-- Result of one `CipherConn.Read` call: the bytes copied into the
caller's buffer, the error if any, the successor state and cache, and
whether the call panicked (`crashed`). -/
structure ReadResult where
  data : Bytes
  err : Option CipherReadError
  conn : CipherConn
  cache : Cache
  crashed : Bool
deriving DecidableEq, Repr

/-- Translation of `CipherConn.Read` with a caller buffer of size `m`:
drain the internal buffer if non-empty; otherwise read the 2-byte length
prefix, read that many bytes, split off the 12-byte nonce (the Go slice
`encryptedMessage[:12]` panics when fewer than 12 bytes were read), check
and record the nonce, open the ciphertext, buffer the plaintext and drain
it. -/
def CipherConn.Read (key : Bytes) (m : Nat) (c : CipherConn) (cache : Cache) :
    ReadResult :=
  if c.buffer = [] then
    match takeExact packetMessageLengthSize c.stream with
    | none => ⟨[], some .ioFailed, ⟨c.stream.drop 2, c.buffer⟩, cache, false⟩
    | some (lenBytes, s1) =>
      let encLen := uint16BE lenBytes.headI lenBytes.tail.headI
      match takeExact encLen s1 with
      | none => ⟨[], some .ioFailed, ⟨s1.drop encLen, c.buffer⟩, cache, false⟩
      | some (msg, s2) =>
        if msg.length < 12 then ⟨[], none, c, cache, true⟩
        else
          let nonce := msg.take 12
          if cacheHas cache nonce then ⟨[], some .replayAttack, ⟨s2, c.buffer⟩, cache, false⟩
          else
            match aeadOpn key nonce (msg.drop 12) with
            | none => ⟨[], some .decryptFailed, ⟨s2, c.buffer⟩, cacheStore cache nonce, false⟩
            | some pt => ⟨pt.take m, none, ⟨s2, pt.drop m⟩, cacheStore cache nonce, false⟩
  else ⟨c.buffer.take m, none, ⟨c.stream, c.buffer.drop m⟩, cache, false⟩

/-- Translation of `CipherConn.Write` with the freshly drawn nonce as a
parameter (the source redraws until the nonce is fresh): seal, build the
length-prefixed record, and emit it as a single write. -/
def CipherConn.Write (key nonce b : Bytes) (cache : Cache) :
    List Bytes × Nat × Cache :=
  let ciphertext := aeadSeal key nonce b
  let packet := nonce ++ ciphertext
  let fullPacket := putUint16BE packet.length ++ packet
  ([fullPacket], b.length, cacheStore cache nonce)

/-- Successive `CipherConn.Read` calls with the given caller-buffer sizes,
concatenating the returned bytes; a panic stops the run. -/
def runReads (key : Bytes) : List Nat → CipherConn → Cache → Bytes
  | [], _, _ => []
  | m :: ms, c, cache =>
    let r := CipherConn.Read key m c cache
    if r.crashed then r.data else r.data ++ runReads key ms r.conn r.cache

theorem putUint16BE_length (v : Nat) : (putUint16BE v).length = 2 := by
  simp [putUint16BE]

theorem uint16BE_putUint16BE {v : Nat} (h : v ≤ 65535) :
    uint16BE (putUint16BE v).headI (putUint16BE v).tail.headI = v := by
  simp [putUint16BE, uint16BE]
  omega

/-- C3: for a plaintext whose record fits the 2-byte length field, `Write`
issues exactly one underlying write consisting of the 2-byte big-endian
length (decoding to `|nonce| + |ciphertext+tag|`), the nonce and the
ciphertext, and returns the plaintext length. -/
theorem cipherConn_write_format (key nonce b : Bytes) (cache : Cache)
    (hn : nonce.length = 12) (hfit : 12 + (b.length + 16) ≤ 65535) :
    (CipherConn.Write key nonce b cache).1
        = [putUint16BE (nonce.length + (aeadSeal key nonce b).length)
            ++ (nonce ++ aeadSeal key nonce b)]
      ∧ uint16BE (putUint16BE (nonce.length + (aeadSeal key nonce b).length)).headI
          (putUint16BE (nonce.length + (aeadSeal key nonce b).length)).tail.headI
          = nonce.length + (aeadSeal key nonce b).length
      ∧ (CipherConn.Write key nonce b cache).1.length = 1
      ∧ (CipherConn.Write key nonce b cache).2.1 = b.length := by
  refine ⟨?_, ?_, rfl, rfl⟩
  · simp [CipherConn.Write]
  · apply uint16BE_putUint16BE
    rw [hn, aeadSeal_length]
    omega

/-- Witness for C3 at a concrete three-byte plaintext. -/
theorem cipherConn_write_format_witness :
    (CipherConn.Write (List.replicate 32 0) (List.replicate 12 0) [104, 105, 33] []).1
        = [putUint16BE ((List.replicate 12 0 : Bytes).length
              + (aeadSeal (List.replicate 32 0) (List.replicate 12 0) [104, 105, 33]).length)
            ++ (List.replicate 12 0
              ++ aeadSeal (List.replicate 32 0) (List.replicate 12 0) [104, 105, 33])]
      ∧ uint16BE (putUint16BE ((List.replicate 12 0 : Bytes).length
              + (aeadSeal (List.replicate 32 0) (List.replicate 12 0) [104, 105, 33]).length)).headI
          (putUint16BE ((List.replicate 12 0 : Bytes).length
              + (aeadSeal (List.replicate 32 0) (List.replicate 12 0) [104, 105, 33]).length)).tail.headI
          = (List.replicate 12 0 : Bytes).length
              + (aeadSeal (List.replicate 32 0) (List.replicate 12 0) [104, 105, 33]).length
      ∧ (CipherConn.Write (List.replicate 32 0) (List.replicate 12 0) [104, 105, 33] []).1.length = 1
      ∧ (CipherConn.Write (List.replicate 32 0) (List.replicate 12 0) [104, 105, 33] []).2.1 = 3 :=
  cipherConn_write_format (List.replicate 32 0) (List.replicate 12 0) [104, 105, 33] []
    (by decide) (by decide)

/-- C5 (code bug): on a record whose 2-byte length prefix is 0, the source
slices `encryptedMessage[:12]` on an empty slice, a Go runtime panic — the
read crashes instead of returning an error. -/
theorem cipherConnRead_zeroLength_panics :
    (CipherConn.Read [] 1 ⟨[0, 0], []⟩ []).crashed = true
      ∧ (CipherConn.Read [] 1 ⟨[0, 0], []⟩ []).data = [] := by
  constructor
  · rfl
  · rfl

/-- Evaluation of `CipherConn.Read` on a stream beginning with a
well-formed record: the nonce is checked against the cache, recorded, and
the ciphertext opened. -/
theorem cipherConnRead_record (key : Bytes) (m : Nat) (n ct rest : Bytes) (cache : Cache)
    (hn : n.length = 12) (hfit : 12 + ct.length ≤ 65535) :
    CipherConn.Read key m ⟨putUint16BE (12 + ct.length) ++ (n ++ ct) ++ rest, []⟩ cache
      = if cacheHas cache n then ⟨[], some .replayAttack, ⟨rest, []⟩, cache, false⟩
        else
          match aeadOpn key n ct with
          | none => ⟨[], some .decryptFailed, ⟨rest, []⟩, cacheStore cache n, false⟩
          | some pt => ⟨pt.take m, none, ⟨rest, pt.drop m⟩, cacheStore cache n, false⟩ := by
  have hassoc : putUint16BE (12 + ct.length) ++ (n ++ ct) ++ rest
      = putUint16BE (12 + ct.length) ++ ((n ++ ct) ++ rest) := by
    simp [List.append_assoc]
  have h2 : takeExact 2 (putUint16BE (12 + ct.length) ++ ((n ++ ct) ++ rest))
      = some (putUint16BE (12 + ct.length), (n ++ ct) ++ rest) := by
    have h := takeExact_append (putUint16BE (12 + ct.length)) ((n ++ ct) ++ rest)
    rwa [putUint16BE_length] at h
  have hL : uint16BE (putUint16BE (12 + ct.length)).headI
      (putUint16BE (12 + ct.length)).tail.headI = 12 + ct.length :=
    uint16BE_putUint16BE hfit
  have hnct : (n ++ ct).length = 12 + ct.length := by simp [hn]
  have h3 : takeExact (12 + ct.length) ((n ++ ct) ++ rest) = some (n ++ ct, rest) := by
    have h := takeExact_append (n ++ ct) rest
    rwa [hnct] at h
  have hmlen : ¬(n ++ ct).length < 12 := by omega
  have htn : (n ++ ct).take 12 = n := by rw [← hn]; exact List.take_left n ct
  have hdn : (n ++ ct).drop 12 = ct := by rw [← hn]; exact List.drop_left n ct
  simp only [CipherConn.Read, packetMessageLengthSize, hassoc, h2, hL, h3,
    if_neg hmlen, htn, hdn]
  simp

theorem decrypt_cache_mem (blob key : Bytes) (cache : Cache) (hlen : 12 ≤ blob.length) :
    blob.take 12 ∈ (Decrypt_AES_GCM blob key cache).2 := by
  simp only [Decrypt_AES_GCM, AES_GCM_NonceSize]
  rw [if_neg (by omega)]
  by_cases hch : cacheHas cache (blob.take 12) = true
  · rw [if_pos hch]
    simpa using (cacheHas_iff_mem cache (blob.take 12)).mp hch
  · rw [if_neg hch]
    cases aeadOpn key (blob.take 12) (blob.drop 12) <;> simp [cacheStore]

theorem decrypt_dup (blob key : Bytes) (cache : Cache) (hlen : 12 ≤ blob.length)
    (hmem : blob.take 12 ∈ cache) :
    (Decrypt_AES_GCM blob key cache).1 = .error .duplicatedNonce := by
  simp only [Decrypt_AES_GCM, AES_GCM_NonceSize]
  rw [if_neg (by omega), if_pos ((cacheHas_iff_mem _ _).mpr hmem)]

/-- C10: every decrypt path records the nonce before attempting
authenticated decryption — `Decrypt_AES_GCM` leaves the nonce in its cache
whatever the outcome, so a later call on any blob with the same nonce
returns the duplicate-nonce error; likewise `CipherConn.Read` records the
record's nonce in its cache whatever the outcome, and a read of a record
whose nonce is cached fails with the replay error delivering no bytes. -/
theorem nonce_recorded_even_on_failure
    (blob key blob₂ key₂ key₃ n ct rest : Bytes) (cache cache₂ cache₃ : Cache) (m : Nat)
    (hlen : 12 ≤ blob.length) (hlen₂ : 12 ≤ blob₂.length)
    (hsame : blob₂.take 12 = blob.take 12)
    (hn : n.length = 12) (hfit : 12 + ct.length ≤ 65535)
    (hmem : n ∈ cache₂) :
    blob.take 12 ∈ (Decrypt_AES_GCM blob key cache).2
      ∧ (Decrypt_AES_GCM blob₂ key₂ (Decrypt_AES_GCM blob key cache).2).1
          = .error .duplicatedNonce
      ∧ n ∈ (CipherConn.Read key₃ m
          ⟨putUint16BE (12 + ct.length) ++ (n ++ ct) ++ rest, []⟩ cache₃).cache
      ∧ (CipherConn.Read key₃ m
          ⟨putUint16BE (12 + ct.length) ++ (n ++ ct) ++ rest, []⟩ cache₂).err
          = some .replayAttack
      ∧ (CipherConn.Read key₃ m
          ⟨putUint16BE (12 + ct.length) ++ (n ++ ct) ++ rest, []⟩ cache₂).data = [] := by
  have hrec₃ := cipherConnRead_record key₃ m n ct rest cache₃ hn hfit
  have hrec₂ := cipherConnRead_record key₃ m n ct rest cache₂ hn hfit
  have hch₂ : cacheHas cache₂ n = true := (cacheHas_iff_mem cache₂ n).mpr hmem
  refine ⟨decrypt_cache_mem blob key cache hlen, ?_, ?_, ?_, ?_⟩
  · apply decrypt_dup blob₂ key₂ _ hlen₂
    rw [hsame]
    exact decrypt_cache_mem blob key cache hlen
  · rw [hrec₃]
    by_cases hch : cacheHas cache₃ n = true
    · rw [if_pos hch]
      exact (cacheHas_iff_mem cache₃ n).mp hch
    · rw [if_neg hch]
      cases aeadOpn key₃ n ct <;> simp [cacheStore]
  · rw [hrec₂, if_pos hch₂]
  · rw [hrec₂, if_pos hch₂]

/-- Witness for C10: concrete blobs sharing the nonce `replicate 12 5` and
a concrete record whose nonce is already cached. -/
theorem nonce_recorded_even_on_failure_witness :
    (List.replicate 20 5 : Bytes).take 12
        ∈ (Decrypt_AES_GCM (List.replicate 20 5) (List.replicate 32 0) []).2
      ∧ (Decrypt_AES_GCM (List.replicate 25 5) (List.replicate 32 1)
          (Decrypt_AES_GCM (List.replicate 20 5) (List.replicate 32 0) []).2).1
          = .error .duplicatedNonce
      ∧ List.replicate 12 9
          ∈ (CipherConn.Read (List.replicate 32 0) 4
            ⟨putUint16BE (12 + 3) ++ (List.replicate 12 9 ++ [1, 2, 3]) ++ [], []⟩ []).cache
      ∧ (CipherConn.Read (List.replicate 32 0) 4
          ⟨putUint16BE (12 + 3) ++ (List.replicate 12 9 ++ [1, 2, 3]) ++ [], []⟩
          [List.replicate 12 9]).err = some .replayAttack
      ∧ (CipherConn.Read (List.replicate 32 0) 4
          ⟨putUint16BE (12 + 3) ++ (List.replicate 12 9 ++ [1, 2, 3]) ++ [], []⟩
          [List.replicate 12 9]).data = [] := by
  have h := nonce_recorded_even_on_failure
    (List.replicate 20 5) (List.replicate 32 0) (List.replicate 25 5) (List.replicate 32 1)
    (List.replicate 32 0) (List.replicate 12 9) [1, 2, 3] []
    [] [List.replicate 12 9] [] 4
    (by decide) (by decide) (by decide) (by decide) (by decide) (by decide)
  simpa using h

theorem enc257_append_cons_ge (l : Bytes) (b : Nat) (r : Bytes) :
    257 ≤ enc257 (l ++ b :: r) := by
  cases l with
  | nil => simpa using enc257_cons_ge b r
  | cons x xs =>
    rw [List.cons_append]
    exact enc257_cons_ge x (xs ++ b :: r)

/-- One read from a stream containing only byte values (below 256), with an
empty internal buffer, never delivers data: the idealized tag head of any
acceptable ciphertext is at least 257, so decryption cannot succeed. -/
theorem cipherConnRead_bytesOnly (key s : Bytes) (cache : Cache) (m : Nat)
    (hel : ∀ e ∈ s, e < 256) :
    ((CipherConn.Read key m ⟨s, []⟩ cache).crashed = true
      ∧ (CipherConn.Read key m ⟨s, []⟩ cache).data = [])
    ∨ ∃ err s' cache', CipherConn.Read key m ⟨s, []⟩ cache
        = ⟨[], some err, ⟨s', []⟩, cache', false⟩ ∧ ∀ e ∈ s', e < 256 := by
  cases hte : takeExact 2 s with
  | none =>
    right
    refine ⟨.ioFailed, s.drop 2, cache, ?_, ?_⟩
    · simp [CipherConn.Read, packetMessageLengthSize, hte]
    · exact fun e he => hel e (List.drop_subset 2 s he)
  | some p₂ =>
    obtain ⟨lb, s1⟩ := p₂
    obtain ⟨hlb, hseq⟩ := takeExact_eq_some hte
    cases htm : takeExact (uint16BE lb.headI lb.tail.headI) s1 with
    | none =>
      right
      refine ⟨.ioFailed, s1.drop (uint16BE lb.headI lb.tail.headI), cache, ?_, ?_⟩
      · simp [CipherConn.Read, packetMessageLengthSize, hte, htm]
      · intro e he
        apply hel
        rw [hseq]
        exact List.mem_append_right lb (List.drop_subset _ s1 he)
    | some q =>
      obtain ⟨msg, s2⟩ := q
      obtain ⟨hmsg, hs1⟩ := takeExact_eq_some htm
      have hs2el : ∀ e ∈ s2, e < 256 := by
        intro e he
        apply hel
        rw [hseq, hs1]
        exact List.mem_append_right lb (List.mem_append_right msg he)
      have hmsgel : ∀ e ∈ msg, e < 256 := by
        intro e he
        apply hel
        rw [hseq, hs1]
        exact List.mem_append_right lb (List.mem_append_left s2 he)
      by_cases hlt : msg.length < 12
      · left
        constructor <;> simp [CipherConn.Read, packetMessageLengthSize, hte, htm, hlt]
      · by_cases hch : cacheHas cache (msg.take 12) = true
        · right
          refine ⟨.replayAttack, s2, cache, ?_, hs2el⟩
          simp [CipherConn.Read, packetMessageLengthSize, hte, htm, hlt, hch]
        · cases hop : aeadOpn key (msg.take 12) (msg.drop 12) with
          | none =>
            right
            refine ⟨.decryptFailed, s2, cacheStore cache (msg.take 12), ?_, hs2el⟩
            simp [CipherConn.Read, packetMessageLengthSize, hte, htm, hlt, hch, hop]
          | some pt =>
            exfalso
            have hct := aeadOpn_eq_some.mp hop
            have htE : enc257 (key ++ 256 :: msg.take 12 ++ 256 :: pt) ∈ msg.drop 12 := by
              rw [hct]
              simp [aeadSeal, aeadTag]
            have hge : 257 ≤ enc257 (key ++ 256 :: msg.take 12 ++ 256 :: pt) :=
              enc257_append_cons_ge (key ++ 256 :: msg.take 12) 256 pt
            have hlt' := hmsgel _ (List.drop_subset 12 msg htE)
            omega

theorem bound_append_cons {A B : Bytes} (hA : ∀ e ∈ A, e < 256) (hB : ∀ e ∈ B, e < 256) :
    ∀ e ∈ A ++ 256 :: B, e < 257 := by
  intro e he
  simp only [List.mem_append, List.mem_cons] at he
  rcases he with h | h | h
  · exact Nat.lt_trans (hA e h) (by omega)
  · omega
  · exact Nat.lt_trans (hB e h) (by omega)

/-- One read from a stream whose elements all come from a single written
record: the read either panics, or fails delivering nothing while the
stream keeps the invariant, or succeeds — in which case the idealized tag
forces the delivered plaintext to be exactly the written plaintext `p`,
and the tag element is consumed so no later success is possible. -/
theorem cipherConnRead_step (key nonce p : Bytes) (hn : nonce.length = 12)
    (hnb : ∀ b ∈ nonce, b < 256) (hpb : ∀ b ∈ p, b < 256)
    (s : Bytes) (cache : Cache) (m : Nat)
    (hel : ∀ e ∈ s, e = enc257 (key ++ 256 :: nonce ++ 256 :: p) ∨ e < 256)
    (hcnt : s.count (enc257 (key ++ 256 :: nonce ++ 256 :: p)) ≤ 1) :
    (CipherConn.Read key m ⟨s, []⟩ cache = ⟨[], none, ⟨s, []⟩, cache, true⟩)
    ∨ (∃ err s' cache', CipherConn.Read key m ⟨s, []⟩ cache
        = ⟨[], some err, ⟨s', []⟩, cache', false⟩
        ∧ (∀ e ∈ s', e = enc257 (key ++ 256 :: nonce ++ 256 :: p) ∨ e < 256)
        ∧ s'.count (enc257 (key ++ 256 :: nonce ++ 256 :: p)) ≤ 1)
    ∨ (∃ s' cache', CipherConn.Read key m ⟨s, []⟩ cache
        = ⟨p.take m, none, ⟨s', p.drop m⟩, cache', false⟩
        ∧ (∀ e ∈ s', e < 256)) := by
  cases hte : takeExact 2 s with
  | none =>
    right; left
    refine ⟨.ioFailed, s.drop 2, cache, ?_, ?_, ?_⟩
    · simp [CipherConn.Read, packetMessageLengthSize, hte]
    · exact fun e he => hel e (List.drop_subset 2 s he)
    · exact le_trans ((List.drop_sublist 2 s).count_le _) hcnt
  | some p₂ =>
    obtain ⟨lb, s1⟩ := p₂
    obtain ⟨hlb, hseq⟩ := takeExact_eq_some hte
    have hs1sub : List.Sublist s1 s := hseq ▸ List.sublist_append_right lb s1
    cases htm : takeExact (uint16BE lb.headI lb.tail.headI) s1 with
    | none =>
      right; left
      refine ⟨.ioFailed, s1.drop (uint16BE lb.headI lb.tail.headI), cache, ?_, ?_, ?_⟩
      · simp [CipherConn.Read, packetMessageLengthSize, hte, htm]
      · exact fun e he =>
          hel e (hs1sub.subset (List.drop_subset _ s1 he))
      · exact le_trans (((List.drop_sublist _ s1).trans hs1sub).count_le _) hcnt
    | some q =>
      obtain ⟨msg, s2⟩ := q
      obtain ⟨hmsg, hs1⟩ := takeExact_eq_some htm
      have hs2sub : List.Sublist s2 s := ((hs1 ▸ List.sublist_append_right msg s2).trans hs1sub)
      have hmsgsub : List.Sublist msg s :=
        ((hs1 ▸ (List.sublist_append_left msg s2 : List.Sublist msg (msg ++ s2))).trans hs1sub)
      by_cases hlt : msg.length < 12
      · left
        simp [CipherConn.Read, packetMessageLengthSize, hte, htm, hlt]
      · by_cases hch : cacheHas cache (msg.take 12) = true
        · right; left
          refine ⟨.replayAttack, s2, cache, ?_, ?_, ?_⟩
          · simp [CipherConn.Read, packetMessageLengthSize, hte, htm, hlt, hch]
          · exact fun e he => hel e (hs2sub.subset he)
          · exact le_trans (hs2sub.count_le _) hcnt
        · cases hop : aeadOpn key (msg.take 12) (msg.drop 12) with
          | none =>
            right; left
            refine ⟨.decryptFailed, s2, cacheStore cache (msg.take 12), ?_, ?_, ?_⟩
            · simp [CipherConn.Read, packetMessageLengthSize, hte, htm, hlt, hch, hop]
            · exact fun e he => hel e (hs2sub.subset he)
            · exact le_trans (hs2sub.count_le _) hcnt
          | some pt =>
            right; right
            have hct := aeadOpn_eq_some.mp hop
            have htEmem : enc257 (key ++ 256 :: msg.take 12 ++ 256 :: pt) ∈ msg := by
              apply List.drop_subset 12 msg
              rw [hct]
              simp [aeadSeal, aeadTag]
            have htEge : 257 ≤ enc257 (key ++ 256 :: msg.take 12 ++ 256 :: pt) :=
              enc257_append_cons_ge (key ++ 256 :: msg.take 12) 256 pt
            have htEeq : enc257 (key ++ 256 :: msg.take 12 ++ 256 :: pt)
                = enc257 (key ++ 256 :: nonce ++ 256 :: p) := by
              rcases hel _ (hmsgsub.subset htEmem) with h | h
              · exact h
              · omega
            have hbn' : ∀ e ∈ msg.take 12, e < 256 := by
              intro e he
              rcases hel e (hmsgsub.subset (List.take_subset 12 msg he)) with h | h
              · exfalso
                have hmem : e ∈ key ++ 256 :: msg.take 12 ++ 256 :: pt := by
                  apply List.mem_append_left
                  exact List.mem_append_right key (List.mem_cons_of_mem 256 he)
                have := enc257_gt_of_mem hmem
                omega
              · exact h
            have hbp' : ∀ e ∈ pt, e < 256 := by
              intro e he
              have hemem : e ∈ msg := by
                apply List.drop_subset 12 msg
                rw [hct]
                simp [aeadSeal, he]
              rcases hel e (hmsgsub.subset hemem) with h | h
              · exfalso
                have hmem : e ∈ key ++ 256 :: msg.take 12 ++ 256 :: pt :=
                  List.mem_append_right _ (List.mem_cons_of_mem 256 he)
                have := enc257_gt_of_mem hmem
                omega
              · exact h
            have htklen : (msg.take 12).length = 12 := by
              rw [List.length_take]
              omega
            have henc2 : enc257 ((256 :: msg.take 12) ++ 256 :: pt)
                = enc257 ((256 :: nonce) ++ 256 :: p) := by
              apply @enc257_append_cancel key
              rw [← List.append_assoc, ← List.append_assoc]
              exact htEeq
            have henc3 : enc257 (msg.take 12 ++ 256 :: pt) = enc257 (nonce ++ 256 :: p) := by
              rw [List.cons_append, List.cons_append] at henc2
              simp only [enc257] at henc2
              omega
            have hlists : msg.take 12 ++ 256 :: pt = nonce ++ 256 :: p :=
              enc257_inj (bound_append_cons hbn' hbp') (bound_append_cons hnb hpb) henc3
            obtain ⟨hn', hptp⟩ := List.append_inj hlists (by rw [htklen, hn])
            have hpt : pt = p := by
              injection hptp
            have htEinmsg : (msg.count (enc257 (key ++ 256 :: nonce ++ 256 :: p))) ≥ 1 := by
              rw [← htEeq]
              exact List.count_pos_iff.mpr htEmem
            have hcnt2 : s2.count (enc257 (key ++ 256 :: nonce ++ 256 :: p)) = 0 := by
              have hc1 : s.count (enc257 (key ++ 256 :: nonce ++ 256 :: p))
                  = lb.count (enc257 (key ++ 256 :: nonce ++ 256 :: p))
                    + (msg.count (enc257 (key ++ 256 :: nonce ++ 256 :: p))
                      + s2.count (enc257 (key ++ 256 :: nonce ++ 256 :: p))) := by
                rw [hseq, hs1, List.count_append, List.count_append]
              omega
            have hnotin : enc257 (key ++ 256 :: nonce ++ 256 :: p) ∉ s2 :=
              List.count_eq_zero.mp hcnt2
            refine ⟨s2, cacheStore cache (msg.take 12), ?_, ?_⟩
            · subst hpt
              simp [CipherConn.Read, packetMessageLengthSize, hte, htm, hlt, hch, hop]
            · intro e he
              rcases hel e (hs2sub.subset he) with h | h
              · exact absurd (h ▸ he) hnotin
              · exact h

theorem runReads_bytesOnly (key : Bytes) (sizes : List Nat) :
    ∀ (s buf : Bytes) (cache : Cache), (∀ e ∈ s, e < 256) →
      ∃ u, runReads key sizes ⟨s, buf⟩ cache = buf.take u := by
  induction sizes with
  | nil =>
    intro s buf cache _
    exact ⟨0, by simp [runReads]⟩
  | cons m ms ih =>
    intro s buf cache hel
    by_cases hb : buf = []
    · subst hb
      rcases cipherConnRead_bytesOnly key s cache m hel with
        ⟨hcr, hdat⟩ | ⟨err, s', cache', heq, hel'⟩
      · refine ⟨0, ?_⟩
        simp only [runReads, hcr, if_true, hdat]
        simp
      · obtain ⟨u, hu⟩ := ih s' [] cache' hel'
        refine ⟨0, ?_⟩
        simp only [runReads, heq]
        simp only [List.take_nil] at hu
        simp [hu]
    · have hread : CipherConn.Read key m ⟨s, buf⟩ cache
          = ⟨buf.take m, none, ⟨s, buf.drop m⟩, cache, false⟩ := by
        simp [CipherConn.Read, hb]
      obtain ⟨u, hu⟩ := ih s (buf.drop m) cache hel
      refine ⟨m + u, ?_⟩
      simp only [runReads, hread]
      simp only [Bool.false_eq_true, if_false]
      rw [hu, ← List.take_add]

theorem runReads_record (key nonce p : Bytes) (hn : nonce.length = 12)
    (hnb : ∀ b ∈ nonce, b < 256) (hpb : ∀ b ∈ p, b < 256) (sizes : List Nat) :
    ∀ (s : Bytes) (cache : Cache),
      (∀ e ∈ s, e = enc257 (key ++ 256 :: nonce ++ 256 :: p) ∨ e < 256) →
      s.count (enc257 (key ++ 256 :: nonce ++ 256 :: p)) ≤ 1 →
      ∃ t, runReads key sizes ⟨s, []⟩ cache = p.take t := by
  induction sizes with
  | nil =>
    intro s cache _ _
    exact ⟨0, by simp [runReads]⟩
  | cons m ms ih =>
    intro s cache hel hcnt
    rcases cipherConnRead_step key nonce p hn hnb hpb s cache m hel hcnt with
      heq | ⟨err, s', cache', heq, hel', hcnt'⟩ | ⟨s', cache', heq, hel'⟩
    · refine ⟨0, ?_⟩
      simp only [runReads, heq]
      simp
    · obtain ⟨t, ht⟩ := ih s' cache' hel' hcnt'
      refine ⟨t, ?_⟩
      simp only [runReads, heq]
      simp [ht]
    · obtain ⟨u, hu⟩ := runReads_bytesOnly key ms s' (p.drop m) cache' hel'
      refine ⟨m + u, ?_⟩
      simp only [runReads, heq]
      simp only [Bool.false_eq_true, if_false]
      rw [hu, ← List.take_add]

/-- C1: a plaintext written through `CipherConn.Write` and read back by the
peer through successive `CipherConn.Read` calls is returned exactly,
whenever the reads deliver a total of `|p|` bytes. -/
theorem cipherConn_record_roundtrip (key nonce p : Bytes) (sizes : List Nat)
    (wcache cache₀ : Cache)
    (hkl : key.length = 16 ∨ key.length = 24 ∨ key.length = 32)
    (hn : nonce.length = 12) (hnb : ∀ b ∈ nonce, b < 256) (hpb : ∀ b ∈ p, b < 256)
    (hsum : (runReads key sizes
        ⟨(CipherConn.Write key nonce p wcache).1.flatten, []⟩ cache₀).length = p.length) :
    runReads key sizes ⟨(CipherConn.Write key nonce p wcache).1.flatten, []⟩ cache₀ = p := by
  have hwire : (CipherConn.Write key nonce p wcache).1.flatten
      = putUint16BE ((nonce ++ aeadSeal key nonce p).length)
          ++ (nonce ++ aeadSeal key nonce p) := by
    simp [CipherConn.Write]
  have hge : 257 ≤ enc257 (key ++ 256 :: nonce ++ 256 :: p) :=
    enc257_append_cons_ge (key ++ 256 :: nonce) 256 p
  have hput : ∀ e ∈ putUint16BE ((nonce ++ aeadSeal key nonce p).length), e < 256 := by
    intro e he
    simp only [putUint16BE, List.mem_cons, List.not_mem_nil, or_false] at he
    rcases he with h | h <;> subst h <;> omega
  have hel : ∀ e ∈ (CipherConn.Write key nonce p wcache).1.flatten,
      e = enc257 (key ++ 256 :: nonce ++ 256 :: p) ∨ e < 256 := by
    rw [hwire]
    intro e he
    rcases List.mem_append.mp he with h | h
    · exact Or.inr (hput e h)
    · rcases List.mem_append.mp h with h | h
      · exact Or.inr (hnb e h)
      · simp only [aeadSeal, aeadTag] at h
        rcases List.mem_append.mp h with h | h
        · exact Or.inr (hpb e h)
        · rcases List.mem_cons.mp h with h | h
          · exact Or.inl h
          · have := List.eq_of_mem_replicate h
            omega
  have hcnt : ((CipherConn.Write key nonce p wcache).1.flatten).count
      (enc257 (key ++ 256 :: nonce ++ 256 :: p)) ≤ 1 := by
    rw [hwire, List.count_append, List.count_append]
    have h1 : (putUint16BE ((nonce ++ aeadSeal key nonce p).length)).count
        (enc257 (key ++ 256 :: nonce ++ 256 :: p)) = 0 := by
      apply List.count_eq_zero.mpr
      intro hmem
      have := hput _ hmem
      omega
    have h2 : nonce.count (enc257 (key ++ 256 :: nonce ++ 256 :: p)) = 0 := by
      apply List.count_eq_zero.mpr
      intro hmem
      have := hnb _ hmem
      omega
    have h3 : (aeadSeal key nonce p).count (enc257 (key ++ 256 :: nonce ++ 256 :: p)) ≤ 1 := by
      rw [aeadSeal, aeadTag, List.count_append]
      have hp0 : p.count (enc257 (key ++ 256 :: nonce ++ 256 :: p)) = 0 := by
        apply List.count_eq_zero.mpr
        intro hmem
        have := hpb _ hmem
        omega
      have htag : (enc257 (key ++ 256 :: nonce ++ 256 :: p) :: List.replicate 15 0).count
          (enc257 (key ++ 256 :: nonce ++ 256 :: p)) ≤ 1 := by
        rw [List.count_cons]
        have hrep : (List.replicate 15 0).count
            (enc257 (key ++ 256 :: nonce ++ 256 :: p)) = 0 := by
          apply List.count_eq_zero.mpr
          intro hmem
          have := List.eq_of_mem_replicate hmem
          omega
        rw [hrep]
        simp
      omega
    omega
  obtain ⟨t, ht⟩ := runReads_record key nonce p hn hnb hpb sizes
    ((CipherConn.Write key nonce p wcache).1.flatten) cache₀ hel hcnt
  rw [ht] at hsum ⊢
  rw [List.length_take] at hsum
  exact List.take_of_length_le (by omega)

set_option maxRecDepth 40000 in
/-- Witness for C1: the three plaintext bytes `[7, 8, 9]` written through
`CipherConn.Write` are read back exactly by a single read of three bytes. -/
theorem cipherConn_record_roundtrip_witness :
    runReads (List.replicate 32 0) [3]
      ⟨(CipherConn.Write (List.replicate 32 0) (List.replicate 12 1)
        [7, 8, 9] []).1.flatten, []⟩ []
      = [7, 8, 9] :=
  cipherConn_record_roundtrip (List.replicate 32 0) (List.replicate 12 1) [7, 8, 9] [3] [] []
    (Or.inr (Or.inr (by decide))) (by decide)
    (by decide) (by decide) (by decide)
